import Mathlib

/-!
Verification of the Chip Warden versioning/archival engine.

The Python sources under `russ/` are shallowly embedded here:
`gcode_parser.py` (metadata extraction and change detection) and
`file_manager.py` (name sanitization, version-number assignment,
changelog maintenance, and FTP retention sweep).  Python strings are
modelled as Lean `String`/`List Char`, Python `int` as `Int` (or `Nat`
where the source value is manifestly non-negative), fallible code as
`Option`/`Except`, and the filesystem state touched by an operation as
explicit data (lists of file names, file records with modification
times, changelog text).
-/

namespace ChipWarden

/-- Decimal digit character, `chr(48 + d)` for `d < 10`. -/
def digitChar (d : Nat) : Char := Char.ofNat (48 + d)

/-- Digits of `n` in base 10 (most significant first), prepended to `acc`;
structural recursion on a fuel argument kept strictly above `n`.
Models Python's `str` on a non-negative `int`. -/
def pyStrNatAux : Nat → Nat → List Char → List Char
  | 0, _, acc => acc
  | fuel + 1, n, acc =>
    if n < 10 then digitChar n :: acc
    else pyStrNatAux fuel (n / 10) (digitChar (n % 10) :: acc)

/-- Python `str(n)` for a natural number. -/
def pyStrNat (n : Nat) : String := String.mk (pyStrNatAux (n + 1) n [])

/-- Python `str(i)` for an integer. -/
def pyStrInt (i : Int) : String :=
  if i < 0 then "-" ++ pyStrNat i.natAbs else pyStrNat i.natAbs

/-- Parsed metadata record, from the `GCodeMetadata` dataclass. -/
structure GCodeMetadata where
  project : String
  part : String
  posted_timestamp : String
  operations : Int
  tool_count : Int
  machine : String
  setup : String
  program_number : Option String := none
deriving DecidableEq

/-- A warning emitted by `GCodeParser.compare_metadata`; each constructor
corresponds to one `changes['warnings'].append(...)` site in the source,
carrying the old/new values interpolated into the message. -/
inductive Warning where
  | toolCountChangedSignificantly (o n : Int)
  | operationCountChanged (o n : Int)
  | machineChanged (o n : String)
deriving DecidableEq

/-- Severity of a warning: the source prefixes the tool-count and machine
messages with the high-severity marker and the operation-count message
with the informational marker. -/
def Warning.highSeverity : Warning → Bool
  | .toolCountChangedSignificantly _ _ => true
  | .operationCountChanged _ _ => false
  | .machineChanged _ _ => true

/-- Whether a warning is the tool-count warning. -/
def Warning.aboutToolCount : Warning → Bool
  | .toolCountChangedSignificantly _ _ => true
  | _ => false

/-- One value of the `changes['changes']` mapping: an `{'old': .., 'new': ..}`
pair, integer-valued for `tool_count`/`operations` and string-valued for
`machine`/`setup`. -/
inductive FieldChange where
  | intChange (o n : Int)
  | strChange (o n : String)
deriving DecidableEq

/-- Swap the `old` and `new` components of a recorded change. -/
def FieldChange.swap : FieldChange → FieldChange
  | .intChange o n => .intChange n o
  | .strChange o n => .strChange n o

/-- Result of `compare_metadata`: the `has_changes` flag, the ordered
warning list, and the `changes` dict (modelled as an insertion-ordered
association list). -/
structure CompareResult where
  has_changes : Bool
  warnings : List Warning
  changes : List (String × FieldChange)
deriving DecidableEq

/-- `GCodeParser.compare_metadata`.  The four field checks run in program
order (tool count, operations, machine, setup); each appends its entry to
the `changes` dict and, except for `setup`, its warning. -/
def compare_metadata (o n : GCodeMetadata) : CompareResult :=
  let r0 : CompareResult := ⟨false, [], []⟩
  let r1 :=
    if o.tool_count = n.tool_count then r0 else
      { has_changes := true
        warnings := r0.warnings ++
          (if 2 ≤ (n.tool_count - o.tool_count).natAbs then
            [Warning.toolCountChangedSignificantly o.tool_count n.tool_count] else [])
        changes := r0.changes ++ [("tool_count", FieldChange.intChange o.tool_count n.tool_count)] }
  let r2 :=
    if o.operations = n.operations then r1 else
      { has_changes := true
        warnings := r1.warnings ++ [Warning.operationCountChanged o.operations n.operations]
        changes := r1.changes ++ [("operations", FieldChange.intChange o.operations n.operations)] }
  let r3 :=
    if o.machine = n.machine then r2 else
      { has_changes := true
        warnings := r2.warnings ++ [Warning.machineChanged o.machine n.machine]
        changes := r2.changes ++ [("machine", FieldChange.strChange o.machine n.machine)] }
  if o.setup = n.setup then r3 else
    { has_changes := true
      warnings := r3.warnings
      changes := r3.changes ++ [("setup", FieldChange.strChange o.setup n.setup)] }

/-- Concrete record used to instantiate comparison theorems. -/
def mdA : GCodeMetadata :=
  { project := "HYDRAULIC MANIFOLD", part := "1001", posted_timestamp := "2025-10-30-1445"
    operations := 3, tool_count := 5, machine := "PUMA", setup := "OP1-ROUGH-FACE" }

/-- `mdA` with tool count 7 (delta 2) and a later timestamp. -/
def mdB : GCodeMetadata :=
  { project := "HYDRAULIC MANIFOLD", part := "1001", posted_timestamp := "2025-10-31-0900"
    operations := 3, tool_count := 7, machine := "PUMA", setup := "OP1-ROUGH-FACE" }

/-- `mdA` with tool count 6 (delta 1). -/
def mdC : GCodeMetadata :=
  { project := "HYDRAULIC MANIFOLD", part := "1001", posted_timestamp := "2025-10-31-0900"
    operations := 3, tool_count := 6, machine := "PUMA", setup := "OP2-FINISH" }

/-- C6: when tool counts differ the comparison records a `tool_count`
change, and a high-severity tool-count warning appears in the warning list
exactly when the absolute difference is at least 2 (so a delta of 1 gives
a change entry without the warning, and a delta of 2 gives the warning). -/
theorem c6_tool_count_boundary (o n : GCodeMetadata)
    (h : o.tool_count ≠ n.tool_count) :
    ("tool_count", FieldChange.intChange o.tool_count n.tool_count) ∈ (compare_metadata o n).changes
    ∧ ((compare_metadata o n).warnings.any
        (fun w => w.aboutToolCount && w.highSeverity) = true
        ↔ 2 ≤ (n.tool_count - o.tool_count).natAbs) := by
  unfold compare_metadata
  by_cases h2 : o.operations = n.operations <;>
    by_cases h3 : o.machine = n.machine <;>
    by_cases h4 : o.setup = n.setup <;>
    by_cases h5 : 2 ≤ (n.tool_count - o.tool_count).natAbs <;>
    simp [h, h2, h3, h4, h5, Warning.aboutToolCount, Warning.highSeverity]

/-- Witness for `c6_tool_count_boundary` at tool counts 5 and 7. -/
theorem c6_tool_count_boundary_witness :
    ("tool_count", FieldChange.intChange mdA.tool_count mdB.tool_count)
        ∈ (compare_metadata mdA mdB).changes
    ∧ ((compare_metadata mdA mdB).warnings.any
        (fun w => w.aboutToolCount && w.highSeverity) = true
        ↔ 2 ≤ (mdB.tool_count - mdA.tool_count).natAbs) :=
  c6_tool_count_boundary mdA mdB (by decide)

/-- C8: for records with differing tool counts, comparing in either order
gives the same `has_changes` flag, the same changed-field keys, and
entry-wise swapped old/new values in the changes mapping. -/
theorem c8_comparison_swap (a b : GCodeMetadata)
    (h : a.tool_count ≠ b.tool_count) :
    (compare_metadata a b).has_changes = (compare_metadata b a).has_changes
    ∧ (compare_metadata a b).changes.map Prod.fst
        = (compare_metadata b a).changes.map Prod.fst
    ∧ (compare_metadata a b).changes
        = (compare_metadata b a).changes.map (fun p => (p.1, p.2.swap)) := by
  have habs : (b.tool_count - a.tool_count).natAbs = (a.tool_count - b.tool_count).natAbs := by
    omega
  have e1 : (b.tool_count = a.tool_count) = (a.tool_count = b.tool_count) :=
    propext ⟨Eq.symm, Eq.symm⟩
  have e2 : (b.operations = a.operations) = (a.operations = b.operations) :=
    propext ⟨Eq.symm, Eq.symm⟩
  have e3 : (b.machine = a.machine) = (a.machine = b.machine) :=
    propext ⟨Eq.symm, Eq.symm⟩
  have e4 : (b.setup = a.setup) = (a.setup = b.setup) :=
    propext ⟨Eq.symm, Eq.symm⟩
  unfold compare_metadata
  by_cases h2 : a.operations = b.operations <;>
    by_cases h3 : a.machine = b.machine <;>
    by_cases h4 : a.setup = b.setup <;>
    simp [e1, e2, e3, e4, h, h2, h3, h4, habs, FieldChange.swap]

/-- Witness for `c8_comparison_swap` at tool counts 5 and 6. -/
theorem c8_comparison_swap_witness :
    (compare_metadata mdA mdC).has_changes = (compare_metadata mdC mdA).has_changes
    ∧ (compare_metadata mdA mdC).changes.map Prod.fst
        = (compare_metadata mdC mdA).changes.map Prod.fst
    ∧ (compare_metadata mdA mdC).changes
        = (compare_metadata mdC mdA).changes.map (fun p => (p.1, p.2.swap)) :=
  c8_comparison_swap mdA mdC (by decide)

/-- C9: a setup difference is recorded as a change while never affecting
the warning list, and the comparison reads nothing besides tool count,
operations, machine and setup: overwriting project, part, posted timestamp
and program number in both records leaves the result unchanged. -/
theorem c9_setup_and_ignored_fields (a b : GCodeMetadata)
    (p q t p' q' t' s s' : String) (r r' : Option String) :
    compare_metadata
        { a with project := p, part := q, posted_timestamp := t, program_number := r }
        { b with project := p', part := q', posted_timestamp := t', program_number := r' }
      = compare_metadata a b
    ∧ (compare_metadata { a with setup := s } { b with setup := s' }).warnings
        = (compare_metadata a b).warnings
    ∧ (a.setup ≠ b.setup →
        ("setup", FieldChange.strChange a.setup b.setup) ∈ (compare_metadata a b).changes
        ∧ (compare_metadata a b).has_changes = true) := by
  refine ⟨rfl, ?_, ?_⟩
  · unfold compare_metadata
    by_cases h1 : a.tool_count = b.tool_count <;>
      by_cases h2 : a.operations = b.operations <;>
      by_cases h3 : a.machine = b.machine <;>
      by_cases hs : s = s' <;>
      by_cases h4 : a.setup = b.setup <;>
      simp [h1, h2, h3, h4, hs]
  · intro h4
    unfold compare_metadata
    by_cases h1 : a.tool_count = b.tool_count <;>
      by_cases h2 : a.operations = b.operations <;>
      by_cases h3 : a.machine = b.machine <;>
      simp [h1, h2, h3, h4]

/-- Witness for `c9_setup_and_ignored_fields`: `mdA` vs `mdC` differ in
setup, so the setup change is recorded. -/
theorem c9_setup_and_ignored_fields_witness :
    ("setup", FieldChange.strChange mdA.setup mdC.setup) ∈ (compare_metadata mdA mdC).changes
    ∧ (compare_metadata mdA mdC).has_changes = true :=
  (c9_setup_and_ignored_fields mdA mdC "x" "y" "z" "x" "y" "z" "s" "s" none none).2.2
    (by decide)

/-- C10: records agreeing on tool count, operations, machine and setup
compare with no changes, no warnings and `has_changes = false`; in
particular a record compared against itself reports nothing. -/
theorem c10_no_changes (a b : GCodeMetadata)
    (h1 : a.tool_count = b.tool_count) (h2 : a.operations = b.operations)
    (h3 : a.machine = b.machine) (h4 : a.setup = b.setup) :
    compare_metadata a b = ⟨false, [], []⟩
    ∧ compare_metadata a a = ⟨false, [], []⟩ := by
  constructor
  · unfold compare_metadata; simp [h1, h2, h3, h4]
  · unfold compare_metadata; simp

/-- Witness for `c10_no_changes` at `mdA` vs `mdA`. -/
theorem c10_no_changes_witness :
    compare_metadata mdA mdA = ⟨false, [], []⟩
    ∧ compare_metadata mdA mdA = ⟨false, [], []⟩ :=
  c10_no_changes mdA mdA rfl rfl rfl rfl

/-- Python whitespace characters recognised by `str.strip()` (ASCII). -/
def pyIsSpace (c : Char) : Bool :=
  c == ' ' || c == '\t' || c == '\n' || c == '\r' || c == '\x0b' || c == '\x0c'

/-- `str.strip()` on a character list. -/
def pyStripList (cs : List Char) : List Char :=
  ((cs.dropWhile pyIsSpace).reverse.dropWhile pyIsSpace).reverse

/-- `content.split('\n')`: split on every newline, keeping empty pieces. -/
def pySplitNL : List Char → List Char → List String
  | [], cur => [String.mk cur.reverse]
  | '\n' :: rest, cur => String.mk cur.reverse :: pySplitNL rest []
  | c :: rest, cur => pySplitNL rest (c :: cur)

/-- Whether `hay` begins with `pat`. -/
def beginsWith : List Char → List Char → Bool
  | [], _ => true
  | _ :: _, [] => false
  | a :: as, b :: bs => a == b && beginsWith as bs

/-- Python's `pat in hay` substring test. -/
def containsSub (pat : List Char) : List Char → Bool
  | [] => pat.isEmpty
  | c :: rest => beginsWith pat (c :: rest) || containsSub pat rest

/-- First match of the regex `\(([^)]+)\)`: the first `(` that is followed
by at least one non-`)` character and then a `)`; returns the captured
group.  On failure at one `(` the search resumes after it. -/
def findParenContent : List Char → Option (List Char)
  | [] => none
  | '(' :: rest =>
    let content := rest.takeWhile (fun c => !(c == ')'))
    match rest.dropWhile (fun c => !(c == ')')) with
    | ')' :: _ => if content.isEmpty then findParenContent rest else some content
    | _ => findParenContent rest
  | _ :: rest => findParenContent rest

/-- Digit tail of a Python integer literal: digits optionally separated by
single underscores, accumulating the value. -/
def parseUSDigitsGo : List Char → Nat → Option Nat
  | [], acc => some acc
  | '_' :: c :: cs, acc =>
    if c.isDigit then parseUSDigitsGo cs (acc * 10 + (c.toNat - 48)) else none
  | c :: cs, acc =>
    if c.isDigit then parseUSDigitsGo cs (acc * 10 + (c.toNat - 48)) else none

/-- Unsigned decimal digit run (with Python's underscore grouping). -/
def parseUSDigits : List Char → Option Nat
  | [] => none
  | c :: cs => if c.isDigit then parseUSDigitsGo cs (c.toNat - 48) else none

/-- Python `int(s)` on a decimal string: strip whitespace, optional sign,
digit run; `none` models the `ValueError` raised on anything else. -/
def pyInt (s : String) : Option Int :=
  match pyStripList s.data with
  | '+' :: rest => (parseUSDigits rest).map (fun n => (n : Int))
  | '-' :: rest => (parseUSDigits rest).map (fun n => -(n : Int))
  | cs => (parseUSDigits cs).map (fun n => (n : Int))

/-- `metadata[key] = value` on a Python dict modelled as an
insertion-ordered association list: overwrite in place or append. -/
def insertLWW (k v : String) : List (String × String) → List (String × String)
  | [] => [(k, v)]
  | (k2, v2) :: rest =>
    if k2 = k then (k2, v) :: rest else (k2, v2) :: insertLWW k v rest

/-- Dict lookup. -/
def lookupMeta (md : List (String × String)) (k : String) : Option String :=
  (md.find? (fun p => p.1 == k)).map Prod.snd

/-- `key.strip().lower().replace('-', '_')` applied to a metadata key. -/
def normalizeKey (k : String) : String :=
  String.mk (((pyStripList k.data).map Char.toLower).map
    (fun c => if c == '-' then '_' else c))

/-- `re.match(r'O(\d+)', line)` guarded by `line.startswith('O')`:
the maximal digit run directly after a leading `O`. -/
def oMatch : List Char → Option String
  | 'O' :: rest =>
    let ds := rest.takeWhile Char.isDigit
    if ds.isEmpty then none else some (String.mk ds)
  | _ => none

/-- The `CHIP-WARDEN-START` sentinel. -/
def METADATA_START : List Char := "CHIP-WARDEN-START".data

/-- The `CHIP-WARDEN-END` sentinel. -/
def METADATA_END : List Char := "CHIP-WARDEN-END".data

/-- Loop state of `GCodeParser.parse_content`'s scan. -/
structure ScanState where
  in_metadata : Bool
  metadata : List (String × String)
  program_number : Option String
deriving DecidableEq

/-- The line scan of `parse_content`: strip each line, opportunistically
capture the first `O<digits>` program number, toggle on the start
sentinel, stop at the end sentinel, and inside the block parse
`(KEY: VALUE)` comments into the metadata dict (splitting on the first
colon, last write wins). -/
def processLines : List String → ScanState → ScanState
  | [], st => st
  | rawLine :: rest, st =>
    let line := pyStripList rawLine.data
    let st1 :=
      if st.program_number.isNone then
        match oMatch line with
        | some d => { st with program_number := some d }
        | none => st
      else st
    if containsSub METADATA_START line then
      processLines rest { st1 with in_metadata := true }
    else if containsSub METADATA_END line then st1
    else if st1.in_metadata then
      match findParenContent line with
      | some comment =>
        if comment.contains ':' then
          let k := comment.takeWhile (fun c => !(c == ':'))
          let v := (comment.dropWhile (fun c => !(c == ':'))).drop 1
          processLines rest
            { st1 with metadata :=
                insertLWW (normalizeKey (String.mk k)) (String.mk (pyStripList v)) st1.metadata }
        else processLines rest st1
      | none => processLines rest st1
    else processLines rest st1

/-- Scan phase of `parse_content` over the split lines. -/
def scanContent (content : String) : ScanState :=
  processLines (pySplitNL content.data []) ⟨false, [], none⟩

/-- `all(field in metadata for field in ['project', 'part', 'posted'])`. -/
def requiredPresent (md : List (String × String)) : Bool :=
  (lookupMeta md "project").isSome && (lookupMeta md "part").isSome
    && (lookupMeta md "posted").isSome

/-- `int(metadata.get(k, 0))`: the integer `0` when the key is absent,
otherwise Python `int()` of the stored string. -/
def intFieldOrDefault (md : List (String × String)) (k : String) : Option Int :=
  match lookupMeta md k with
  | none => some 0
  | some v => pyInt v

/-- `GCodeParser.parse_content`: scan, require the three mandatory fields,
coerce the numeric fields (a `ValueError` yields `None`), build the
record with the documented defaults. -/
def parse_content (content : String) : Option GCodeMetadata :=
  let st := scanContent content
  if requiredPresent st.metadata then
    match intFieldOrDefault st.metadata "operations",
        intFieldOrDefault st.metadata "tool_count" with
    | some ops, some tc =>
      some { project := (lookupMeta st.metadata "project").getD "unknown"
             part := (lookupMeta st.metadata "part").getD "unknown"
             posted_timestamp := (lookupMeta st.metadata "posted").getD ""
             operations := ops
             tool_count := tc
             machine := (lookupMeta st.metadata "machine").getD "unknown"
             setup := (lookupMeta st.metadata "setup").getD "unknown"
             program_number := st.program_number }
    | _, _ => none
  else none

/-- C7: extraction is all-or-nothing.  If any of the three required fields
is missing after the scan the result is `none`, and if they are present
but the `operations` or `tool_count` value fails integer coercion the
result is also `none`; otherwise a fully populated record is returned, so
no partial record is ever produced. -/
theorem c7_all_or_nothing (content : String) :
    (requiredPresent (scanContent content).metadata = false →
      parse_content content = none)
    ∧ (requiredPresent (scanContent content).metadata = true →
      (intFieldOrDefault (scanContent content).metadata "operations" = none
        ∨ intFieldOrDefault (scanContent content).metadata "tool_count" = none) →
      parse_content content = none) := by
  constructor
  · intro h
    unfold parse_content
    simp [h]
  · intro h hbad
    unfold parse_content
    rcases hops : intFieldOrDefault (scanContent content).metadata "operations" with _ | ops <;>
      rcases htc : intFieldOrDefault (scanContent content).metadata "tool_count" with _ | tc <;>
      simp_all

/-- Header whose required fields are present but whose tool count is not
numeric. -/
def c7Demo : String :=
  "(CHIP-WARDEN-START)\n(PROJECT: A)\n(PART: B)\n(POSTED: T)\n(TOOL-COUNT: x)\n(CHIP-WARDEN-END)"

/-- Witness for `c7_all_or_nothing`: the malformed tool count collapses to
the "no metadata" result. -/
theorem c7_all_or_nothing_witness : parse_content c7Demo = none :=
  (c7_all_or_nothing c7Demo).2 (by decide) (Or.inr (by decide))

/-- `\w` for ASCII: letter, digit or underscore. -/
def isWordChar (c : Char) : Bool := c.isAlphanum || c == '_'

/-- `re.sub(r'_+', '_', s)`: collapse each run of underscores to one. -/
def collapseUnderscores : List Char → List Char
  | [] => []
  | [c] => [c]
  | c1 :: c2 :: rest =>
    if c1 == '_' && c2 == '_' then collapseUnderscores (c2 :: rest)
    else c1 :: collapseUnderscores (c2 :: rest)

/-- `s.strip(t)` for a single strip character. -/
def stripCharEnds (t : Char) (cs : List Char) : List Char :=
  ((cs.dropWhile (fun c => c == t)).reverse.dropWhile (fun c => c == t)).reverse

/-- `FileManager._sanitize_filename`: replace every character outside
`[^\w\-]`'s complement (word characters and hyphen) with `_`, collapse
underscore runs, strip leading/trailing underscores, lower-case. -/
def sanitize_filename (name : String) : String :=
  let step1 := name.data.map (fun c => if isWordChar c || c == '-' then c else '_')
  let step2 := collapseUnderscores step1
  let step3 := stripCharEnds '_' step2
  String.mk (step3.map Char.toLower)

/-- Modelled from the claim's sanitization rule: every character that is
not a letter, digit, or underscore is replaced by an underscore (hyphen
is not exempted), then collapse, strip and lower-case. -/
def sanitizeClaimRule (name : String) : String :=
  let step1 := name.data.map
    (fun c => if c.isAlpha || c.isDigit || c == '_' then c else '_')
  let step2 := collapseUnderscores step1
  let step3 := stripCharEnds '_' step2
  String.mk (step3.map Char.toLower)

/-- C3 counterexample: on `"a-b"` the code keeps the hyphen while the
claimed rule replaces it, so the claim as stated is false. -/
theorem c3_counterexample :
    sanitize_filename "a-b" = "a-b"
    ∧ sanitizeClaimRule "a-b" = "a_b"
    ∧ sanitize_filename "a-b" ≠ sanitizeClaimRule "a-b" := by
  refine ⟨by decide, by decide, by decide⟩

/-- Modelled from the amended rule: characters that are not a letter,
digit, underscore, or hyphen become underscores; collapse, strip,
lower-case. -/
def sanitizeAmendedRule (name : String) : String :=
  let step1 := name.data.map
    (fun c => if c.isAlpha || c.isDigit || c == '_' || c == '-' then c else '_')
  let step2 := collapseUnderscores step1
  let step3 := stripCharEnds '_' step2
  String.mk (step3.map Char.toLower)

/-- C3 amended: sanitization replaces every character that is not a
letter, digit, underscore, or hyphen with an underscore, collapses
consecutive underscores, strips leading/trailing underscores, and
lower-cases the result. -/
theorem c3_amended (name : String) :
    sanitize_filename name = sanitizeAmendedRule name := by
  simp [sanitize_filename, sanitizeAmendedRule, isWordChar, Char.isAlphanum, Bool.or_assoc]

/-- Left-pad the decimal form of `n` with zeros to width 2. -/
def pad2 (n : Nat) : String := if n < 10 then "0" ++ pyStrNat n else pyStrNat n

/-- Left-pad the decimal form of `n` with zeros to width 4. -/
def pad4 (n : Nat) : String :=
  if n < 10 then "000" ++ pyStrNat n
  else if n < 100 then "00" ++ pyStrNat n
  else if n < 1000 then "0" ++ pyStrNat n
  else pyStrNat n

/-- Gregorian month length as validated by `datetime`. -/
def daysInMonth (y m : Nat) : Nat :=
  if m = 2 then
    if y % 4 = 0 && (y % 100 ≠ 0 || y % 400 = 0) then 29 else 28
  else if m = 4 || m = 6 || m = 9 || m = 11 then 30
  else 31

/-- `datetime.strptime(ts, "%Y-%m-%d-%H%M")` for the canonical zero-padded
form `YYYY-MM-DD-HHMM`; `none` models the `ValueError` on anything the
format (or the calendar) rejects. -/
def pyStrptimeYmdHM (s : String) : Option (Nat × Nat × Nat × Nat × Nat) :=
  match s.data with
  | [y1, y2, y3, y4, c1, m1, m2, c2, d1, d2, c3, h1, h2, n1, n2] =>
    if c1 == '-' && c2 == '-' && c3 == '-'
        && y1.isDigit && y2.isDigit && y3.isDigit && y4.isDigit
        && m1.isDigit && m2.isDigit && d1.isDigit && d2.isDigit
        && h1.isDigit && h2.isDigit && n1.isDigit && n2.isDigit then
      let y := ((y1.toNat - 48) * 10 + (y2.toNat - 48)) * 100
        + (y3.toNat - 48) * 10 + (y4.toNat - 48)
      let mo := (m1.toNat - 48) * 10 + (m2.toNat - 48)
      let d := (d1.toNat - 48) * 10 + (d2.toNat - 48)
      let h := (h1.toNat - 48) * 10 + (h2.toNat - 48)
      let mi := (n1.toNat - 48) * 10 + (n2.toNat - 48)
      if 1 ≤ y && 1 ≤ mo && mo ≤ 12 && 1 ≤ d && d ≤ daysInMonth y mo
          && h ≤ 23 && mi ≤ 59 then
        some (y, mo, d, h, mi)
      else none
    else none
  | _ => none

/-- `str(metadata.posted_datetime)` when the timestamp parses. -/
def posted_datetime_str (ts : String) : Option String :=
  match pyStrptimeYmdHM ts with
  | none => none
  | some (y, mo, d, h, mi) =>
    some (pad4 y ++ "-" ++ pad2 mo ++ "-" ++ pad2 d ++ " "
      ++ pad2 h ++ ":" ++ pad2 mi ++ ":00")

/-- `metadata.posted_datetime or metadata.posted_timestamp`. -/
def postedDisplay (md : GCodeMetadata) : String :=
  (posted_datetime_str md.posted_timestamp).getD md.posted_timestamp

/-- `f.readlines()`: lines of `s`, each keeping its trailing newline; a
final fragment without a newline is kept, and an empty trailing fragment
is not a line. -/
def pyReadlinesAux : List Char → List Char → List String
  | [], [] => []
  | [], cur => [String.mk cur.reverse]
  | '\n' :: rest, cur => String.mk ('\n' :: cur).reverse :: pyReadlinesAux rest []
  | c :: rest, cur => pyReadlinesAux rest (c :: cur)

/-- `f.readlines()` on a file content string. -/
def pyReadlines (s : String) : List String := pyReadlinesAux s.data []

/-- The changelog entry text written for one archival. -/
def changelogEntry (md : GCodeMetadata) (version : Nat) : String :=
  "## Version " ++ pyStrNat version ++ " - " ++ md.posted_timestamp ++ "\n\n"
    ++ "- **Setup:** " ++ md.setup ++ "\n"
    ++ "- **Machine:** " ++ md.machine ++ "\n"
    ++ "- **Operations:** " ++ pyStrInt md.operations ++ "\n"
    ++ "- **Tools:** " ++ pyStrInt md.tool_count ++ "\n"
    ++ "- **Posted:** " ++ postedDisplay md ++ "\n\n"

/-- `FileManager._update_changelog` as a pure function from the current
changelog file state (`none` when the file does not exist) to the new
content: build the header only for a fresh file, re-read the old content
skipping the first three lines whenever the first line starts with `#`,
and write header + new entry + re-read content. -/
def update_changelog (current : Option String) (md : GCodeMetadata) (version : Nat) : String :=
  let header :=
    match current with
    | none => "# " ++ md.part ++ " - Change Log\n\n" ++ "Project: " ++ md.project ++ "\n\n"
    | some _ => ""
  let existing_content :=
    match current with
    | none => ""
    | some s =>
      match pyReadlines s with
      | [] => ""
      | l :: ls =>
        if beginsWith "#".data l.data then String.join ((l :: ls).drop 3)
        else String.join (l :: ls)
  header ++ changelogEntry md version ++ existing_content

/-- Metadata of the `i`-th archival (0-based) in the C1 scenario: a fixed
key, per-version setups `S1`, `S2`, `S3`, ... and opaque timestamps
`TS1`, `TS2`, ... (unparseable, so the raw string is displayed). -/
def c1Meta (i : Nat) : GCodeMetadata :=
  { project := "HM", part := "1001", posted_timestamp := "TS" ++ pyStrNat (i + 1)
    operations := 3, tool_count := 5, machine := "PUMA"
    setup := "S" ++ pyStrNat (i + 1) }

/-- Changelog file state after `k` sequential archivals of the C1
scenario, each passing version `k+1` exactly as `archive_gcode` does
(version = count of existing archived files + 1, proved in the C2
theorem). -/
def changelogAfter : Nat → Option String
  | 0 => none
  | k + 1 => some (update_changelog (changelogAfter k) (c1Meta k) (k + 1))

/-- Number of entry headings (`## Version` lines) in a changelog text. -/
def entryHeadingCount (s : String) : Nat :=
  (pyReadlines s).countP (fun l => beginsWith "## Version".data l.data)

/-- C1 fails on the code: after 3 sequential archivals the changelog
contains only 2 entry headings instead of 3 — the 2nd entry's `## Version
2` heading and its `Setup` line were destroyed by the skip-3-lines header
heuristic (which fires on `## Version 2` once the real header was itself
dropped at the 2nd archival), and the document title is gone.  The claim
(prepend preserves all prior entries verbatim, N entries after N
archivals) is the spec's and the code comment's clear intent. -/
theorem c1_changelog_corruption :
    entryHeadingCount ((changelogAfter 3).getD "") = 2
    ∧ (pyReadlines ((changelogAfter 3).getD "")).countP
        (fun l => l == "- **Setup:** S2\n") = 0
    ∧ (pyReadlines ((changelogAfter 2).getD "")).countP
        (fun l => l == "- **Setup:** S2\n") = 1
    ∧ entryHeadingCount ((changelogAfter 1).getD "") = 1 := by
  refine ⟨by decide, by decide, by decide, by decide⟩

/-- `(s ++ t).data` unfolds to list append. -/
theorem strData_append (s t : String) : (s ++ t).data = s.data ++ t.data := by
  cases s; cases t; rfl

/-- `String.mk` is injective. -/
theorem strMk_inj {l l' : List Char} (h : String.mk l = String.mk l') : l = l' := by
  cases h; rfl

/-- Strings with equal character data are equal. -/
theorem strData_ext {s t : String} (h : s.data = t.data) : s = t := by
  cases s; cases t; exact congrArg String.mk h

/-- The digit character of `d < 10` has code `48 + d`. -/
theorem digitChar_toNat (d : Nat) (h : d < 10) : (digitChar d).toNat = 48 + d := by
  interval_cases d <;> decide

/-- The digit character of `d < 10` is a decimal digit. -/
theorem digitChar_isDigit (d : Nat) (h : d < 10) : (digitChar d).isDigit = true := by
  interval_cases d <;> decide

/-- `pyStrNatAux` ignores the fuel once it exceeds `n`. -/
theorem pyStrNatAux_fuel (fuel : Nat) :
    ∀ fuel' n acc, n < fuel → n < fuel' →
      pyStrNatAux fuel n acc = pyStrNatAux fuel' n acc := by
  induction fuel with
  | zero => intro fuel' n acc h _; omega
  | succ fuel ih =>
    intro fuel' n acc h h'
    match fuel', h' with
    | fuel' + 1, _ =>
      show pyStrNatAux (fuel + 1) n acc = pyStrNatAux (fuel' + 1) n acc
      unfold pyStrNatAux
      by_cases h10 : n < 10
      · simp [h10]
      · simp only [if_neg h10]
        exact ih fuel' (n / 10) _ (by omega) (by omega)

/-- Peeling the accumulator off `pyStrNatAux`. -/
theorem pyStrNatAux_append (fuel : Nat) :
    ∀ n acc, n < fuel →
      pyStrNatAux fuel n acc = pyStrNatAux fuel n [] ++ acc := by
  induction fuel with
  | zero => intro n acc h; omega
  | succ fuel ih =>
    intro n acc h
    unfold pyStrNatAux
    by_cases h10 : n < 10
    · simp [h10]
    · simp only [if_neg h10]
      rw [ih (n / 10) _ (by omega), ih (n / 10) [digitChar (n % 10)] (by omega)]
      simp

/-- Every character produced by `pyStrNatAux` over a digit accumulator is
a decimal digit. -/
theorem pyStrNatAux_digits (fuel : Nat) :
    ∀ n acc, (∀ c ∈ acc, c.isDigit = true) →
      ∀ c ∈ pyStrNatAux fuel n acc, c.isDigit = true := by
  induction fuel with
  | zero => intro n acc hacc; exact hacc
  | succ fuel ih =>
    intro n acc hacc c hc
    unfold pyStrNatAux at hc
    by_cases h10 : n < 10
    · simp [h10] at hc
      rcases hc with rfl | hc
      · exact digitChar_isDigit n h10
      · exact hacc c hc
    · simp only [if_neg h10] at hc
      refine ih (n / 10) _ ?_ c hc
      intro c' hc'
      rcases List.mem_cons.1 hc' with rfl | hm
      · exact digitChar_isDigit (n % 10) (by omega)
      · exact hacc c' hm

/-- `str(n)` contains no underscore. -/
theorem pyStrNat_no_underscore (n : Nat) : '_' ∉ (pyStrNat n).data := by
  intro h
  have := pyStrNatAux_digits (n + 1) n [] (by simp) '_' h
  simp at this

/-- Decimal value of a digit list, most significant first. -/
def digitsVal (cs : List Char) (a : Nat) : Nat :=
  cs.foldl (fun x c => x * 10 + (c.toNat - 48)) a

/-- `pyStrNatAux` renders exactly the decimal digits of `n`. -/
theorem pyStrNatAux_val (fuel : Nat) :
    ∀ n a, n < fuel →
      digitsVal (pyStrNatAux fuel n []) a
        = a * 10 ^ (pyStrNatAux fuel n []).length + n := by
  induction fuel with
  | zero => intro n a h; omega
  | succ fuel ih =>
    intro n a h
    by_cases h10 : n < 10
    · have hd : pyStrNatAux (fuel + 1) n [] = [digitChar n] := by
        unfold pyStrNatAux; simp [h10]
      rw [hd]
      simp only [digitsVal, List.foldl_cons, List.foldl_nil, List.length_singleton,
        pow_one, digitChar_toNat n h10]
      omega
    · have hd : pyStrNatAux (fuel + 1) n []
          = pyStrNatAux fuel (n / 10) [] ++ [digitChar (n % 10)] := by
        conv_lhs => unfold pyStrNatAux
        simp only [if_neg h10]
        exact pyStrNatAux_append fuel (n / 10) _ (by omega)
      rw [hd]
      have hmod : (digitChar (n % 10)).toNat = 48 + n % 10 :=
        digitChar_toNat (n % 10) (by omega)
      simp [digitsVal, List.foldl_append] at ih ⊢
      rw [ih (n / 10) a (by omega), hmod]
      have : a * 10 ^ ((pyStrNatAux fuel (n / 10) []).length + 1)
          = a * 10 ^ (pyStrNatAux fuel (n / 10) []).length * 10 := by
        rw [pow_succ]; ring
      rw [this]
      omega

/-- Python decimal rendering of naturals is injective. -/
theorem pyStrNat_inj (m n : Nat) (h : pyStrNat m = pyStrNat n) : m = n := by
  have hdata := strMk_inj h
  have hm := pyStrNatAux_val (m + 1) m 0 (by omega)
  have hn := pyStrNatAux_val (n + 1) n 0 (by omega)
  rw [hdata] at hm
  simp at hm hn
  omega

/-- Unique decomposition at the first underscore. -/
theorem splitAtUnderscore (l1 : List Char) :
    ∀ l2 r1 r2, '_' ∉ l1 → '_' ∉ l2 →
      l1 ++ '_' :: r1 = l2 ++ '_' :: r2 → l1 = l2 ∧ r1 = r2 := by
  induction l1 with
  | nil =>
    intro l2 r1 r2 _ h2 h
    cases l2 with
    | nil => simpa using h
    | cons c l2' =>
      rw [List.cons_append] at h
      injection h with hc ht
      subst hc
      exact absurd (List.mem_cons_self _ _) h2
  | cons c l1' ih =>
    intro l2 r1 r2 h1 h2 h
    cases l2 with
    | nil =>
      rw [List.cons_append] at h
      injection h with hc ht
      subst hc
      exact absurd (List.mem_cons_self _ _) h1
    | cons c2 l2' =>
      rw [List.cons_append, List.cons_append] at h
      injection h with hc ht
      subst hc
      have := ih l2' r1 r2 (fun hm => h1 (List.mem_cons_of_mem _ hm))
        (fun hm => h2 (List.mem_cons_of_mem _ hm)) ht
      exact ⟨by rw [this.1], this.2⟩

/-- `part_dir.glob("*.nc")` membership: the name ends in `.nc`. -/
def isNc (f : String) : Bool := f.data.reverse.take 3 == ['c', 'n', '.']

/-- Number of `.nc` files in a directory listing. -/
def countNc (files : List String) : Nat := (files.filter isNc).length

/-- Creating a file in a directory: a no-op if the name already exists
(the copy would overwrite it), otherwise the name is added. -/
def insertFile (f : String) (files : List String) : List String :=
  if f ∈ files then files else f :: files

/-- `FileManager.get_next_version_number`: count of existing archived
`.nc` files for the key, plus one. -/
def get_next_version_number (files : List String) : Nat := countNc files + 1

/-- The archive filename `f"{safe_part}_v{version}_{posted_timestamp}.nc"`. -/
def mkVersionedName (safePart : String) (version : Nat) (ts : String) : String :=
  safePart ++ "_v" ++ pyStrNat version ++ "_" ++ ts ++ ".nc"

/-- Character-level shape of a versioned filename. -/
theorem mkVersionedName_data (p : String) (v : Nat) (t : String) :
    (mkVersionedName p v t).data
      = p.data ++ '_' :: 'v' :: ((pyStrNat v).data ++ '_' :: (t.data ++ ['.', 'n', 'c'])) := by
  have h1 : "_v".data = ['_', 'v'] := rfl
  have h2 : "_".data = ['_'] := rfl
  have h3 : ".nc".data = ['.', 'n', 'c'] := rfl
  simp [mkVersionedName, strData_append, h1, h2, h3]

/-- The version number is recoverable from a versioned filename: equal
names for the same part force equal versions. -/
theorem mkVersionedName_inj (p : String) (v v' : Nat) (t t' : String)
    (h : mkVersionedName p v t = mkVersionedName p v' t') : v = v' := by
  have hd := congrArg String.data h
  rw [mkVersionedName_data, mkVersionedName_data] at hd
  have h2 := List.append_cancel_left hd
  simp only [List.cons.injEq] at h2
  have h3 := splitAtUnderscore (pyStrNat v).data (pyStrNat v').data _ _
    (pyStrNat_no_underscore v) (pyStrNat_no_underscore v') h2.2.2
  exact pyStrNat_inj v v' (strData_ext h3.1)

/-- Versioned filenames end in `.nc`. -/
theorem isNc_mkVersionedName (p : String) (v : Nat) (t : String) :
    isNc (mkVersionedName p v t) = true := by
  unfold isNc
  rw [mkVersionedName_data]
  have : p.data ++ '_' :: 'v' :: ((pyStrNat v).data ++ '_' :: (t.data ++ ['.', 'n', 'c']))
      = (p.data ++ '_' :: 'v' :: ((pyStrNat v).data ++ '_' :: t.data)) ++ ['.', 'n', 'c'] := by
    simp
  rw [this, List.reverse_append]
  simp

/-- The changelog file is not a `.nc` file. -/
theorem isNc_changelog : isNc "CHANGELOG.md" = false := by decide

/-- Membership through `insertFile`. -/
theorem mem_insertFile (g f : String) (s : List String) :
    g ∈ insertFile f s ↔ g = f ∨ g ∈ s := by
  unfold insertFile
  by_cases hf : f ∈ s
  · simp only [if_pos hf]
    constructor
    · exact Or.inr
    · rintro (rfl | hg)
      · exact hf
      · exact hg
  · simp [if_neg hf]

/-- Inserting a fresh `.nc` file bumps the `.nc` count by one. -/
theorem countNc_insertFile_fresh (f : String) (s : List String)
    (hmem : f ∉ s) (hnc : isNc f = true) :
    countNc (insertFile f s) = countNc s + 1 := by
  unfold insertFile countNc
  rw [if_neg hmem, List.filter_cons, if_pos hnc]
  rfl

/-- Writing the changelog never changes the `.nc` count. -/
theorem countNc_insertFile_changelog (s : List String) :
    countNc (insertFile "CHANGELOG.md" s) = countNc s := by
  unfold insertFile countNc
  by_cases hf : ("CHANGELOG.md" : String) ∈ s
  · rw [if_pos hf]
  · rw [if_neg hf, List.filter_cons, if_neg (by rw [isNc_changelog]; simp)]

/-- Directory state and assigned version list after `k` sequential calls
of `archive_gcode` for one `(project, part)` key starting from a fresh
part directory: each call computes the next version number from the
current `.nc` count, copies the versioned file, and writes the
changelog. -/
def archiveRun (safePart : String) (ts : Nat → String) : Nat → List String × List Nat
  | 0 => ([], [])
  | k + 1 =>
    let prev := archiveRun safePart ts k
    let v := get_next_version_number prev.1
    let fname := mkVersionedName safePart v (ts k)
    (insertFile "CHANGELOG.md" (insertFile fname prev.1), prev.2 ++ [v])

/-- Invariant of the archive directory: after `k` archivals it holds `k`
versioned `.nc` files (versions `1..k`) plus the changelog. -/
theorem archiveRun_inv (p : String) (ts : Nat → String) (k : Nat) :
    countNc (archiveRun p ts k).1 = k
    ∧ ∀ f ∈ (archiveRun p ts k).1,
        f = "CHANGELOG.md" ∨ ∃ i, 1 ≤ i ∧ i ≤ k ∧ f = mkVersionedName p i (ts (i - 1)) := by
  induction k with
  | zero => exact ⟨rfl, by simp [archiveRun]⟩
  | succ k ih =>
    obtain ⟨hcount, hmem⟩ := ih
    have hv : get_next_version_number (archiveRun p ts k).1 = k + 1 := by
      unfold get_next_version_number; omega
    have hfresh : mkVersionedName p (k + 1) (ts k) ∉ (archiveRun p ts k).1 := by
      intro hmem'
      rcases hmem _ hmem' with hc | ⟨i, hi1, hik, hf⟩
      · have := isNc_mkVersionedName p (k + 1) (ts k)
        rw [hc, isNc_changelog] at this
        exact absurd this (by simp)
      · have := mkVersionedName_inj p (k + 1) i (ts k) (ts (i - 1)) hf
        omega
    constructor
    · show countNc (insertFile "CHANGELOG.md"
        (insertFile (mkVersionedName p (get_next_version_number (archiveRun p ts k).1) (ts k))
          (archiveRun p ts k).1)) = k + 1
      rw [hv, countNc_insertFile_changelog,
        countNc_insertFile_fresh _ _ hfresh (isNc_mkVersionedName p (k + 1) (ts k)), hcount]
    · intro f hf
      rw [show (archiveRun p ts (k + 1)).1 = insertFile "CHANGELOG.md"
          (insertFile (mkVersionedName p (get_next_version_number (archiveRun p ts k).1) (ts k))
            (archiveRun p ts k).1) from rfl, hv] at hf
      rcases (mem_insertFile _ _ _).1 hf with rfl | hf2
      · exact Or.inl rfl
      · rcases (mem_insertFile _ _ _).1 hf2 with rfl | hf3
        · exact Or.inr ⟨k + 1, by omega, by omega, by simp⟩
        · rcases hmem f hf3 with hc | ⟨i, hi1, hik, hfi⟩
          · exact Or.inl hc
          · exact Or.inr ⟨i, hi1, by omega, hfi⟩

/-- `[1, 2, ..., k+1]` grows by appending `k+1`. -/
theorem range'_one_concat (k : Nat) :
    List.range' 1 (k + 1) = List.range' 1 k ++ [k + 1] := by
  have h : ∀ n s : Nat, List.range' s (n + 1) = List.range' s n ++ [s + n] := by
    intro n
    induction n with
    | zero => intro s; simp [List.range']
    | succ n ihn =>
      intro s
      show s :: List.range' (s + 1) (n + 1) = List.range' s (n + 1) ++ [s + (n + 1)]
      rw [ihn (s + 1)]
      show s :: (List.range' (s + 1) n ++ [s + 1 + n]) = (s :: List.range' (s + 1) n) ++ [s + (n + 1)]
      simp
      omega
  rw [h k 1]
  simp
  omega

/-- C2: starting from a fresh key, `N` sequential archivals assign the
version numbers `1, 2, ..., N` exactly (each computed as the count of
existing archived files plus one), the assigned sequence is strictly
increasing, and hence no two archived files for the key share a version
number. -/
theorem c2_version_numbers (p : String) (ts : Nat → String) (N : Nat) :
    (archiveRun p ts N).2 = List.range' 1 N
    ∧ List.Pairwise (· < ·) (archiveRun p ts N).2
    ∧ ∀ k, get_next_version_number (archiveRun p ts k).1 = k + 1 := by
  have hver : ∀ k, (archiveRun p ts k).2 = List.range' 1 k := by
    intro k
    induction k with
    | zero => rfl
    | succ k ih =>
      show (archiveRun p ts k).2 ++ [get_next_version_number (archiveRun p ts k).1]
          = List.range' 1 (k + 1)
      rw [ih, range'_one_concat, show get_next_version_number (archiveRun p ts k).1 = k + 1 by
        unfold get_next_version_number
        rw [(archiveRun_inv p ts k).1]]
  refine ⟨hver N, ?_, fun k => by
    unfold get_next_version_number; rw [(archiveRun_inv p ts k).1]⟩
  rw [hver N]
  have : ∀ n s : Nat, List.Pairwise (· < ·) (List.range' s n) := by
    intro n
    induction n with
    | zero => intro s; simp
    | succ n ihn =>
      intro s
      show List.Pairwise (· < ·) (s :: List.range' (s + 1) n)
      refine List.Pairwise.cons ?_ (ihn (s + 1))
      intro a ha
      have := List.mem_range'_1.1 ha
      omega
  exact this N 1

/-- A file in the FTP publish directory: name and modification time. -/
structure FtpFile where
  name : String
  mtime : Nat
deriving DecidableEq

/-- `Path.stem`: the final component without its last suffix; a leading
dot or a trailing dot is not a suffix. -/
def pyStem (name : String) : String :=
  let cs := name.data
  match cs.reverse.findIdx? (fun c => c == '.') with
  | none => name
  | some r =>
    let i := cs.length - 1 - r
    if 0 < i ∧ 0 < r then String.mk (cs.take i) else name

/-- `s.split('_v')[0]`: everything before the first occurrence of the
two-character marker `_v` (the whole string when absent). -/
def takeBeforeUV : List Char → List Char
  | [] => []
  | '_' :: 'v' :: _ => []
  | c :: rest => c :: takeBeforeUV rest

/-- `nc_file.stem.split('_v')[0]`: the retention grouping key used by the
code (stem first, then cut at the first `_v`). -/
def partKey (name : String) : String := String.mk (takeBeforeUV (pyStem name).data)

/-- Modelled from the claim's grouping rule: the **filename** substring
before the first `_v` (no stem step). -/
def partKeyClaimRule (name : String) : String := String.mk (takeBeforeUV name.data)

/-- First occurrence of each key, in scan order (Python dict key order). -/
def firstKeys : List String → List String
  | [] => []
  | k :: ks => k :: (firstKeys ks).filter (fun k2 => !(k2 == k))

/-- `defaultdict(list)` grouping: keys in first-seen order, each key
mapped to the subsequence of files carrying it. -/
def groupsBy (key : String → String) (l : List FtpFile) : List (String × List FtpFile) :=
  (firstKeys (l.map (fun f => key f.name))).map
    (fun k => (k, l.filter (fun f => key f.name == k)))

/-- Stable insertion keeping modification times descending: an element is
placed before the first strictly older element, after any tie. -/
def insertByMtime (x : FtpFile) : List FtpFile → List FtpFile
  | [] => [x]
  | y :: ys => if y.mtime ≤ x.mtime then x :: y :: ys else y :: insertByMtime x ys

/-- `files.sort(key=lambda x: x.stat().st_mtime, reverse=True)`: the
stable sort by modification time, newest first. -/
def sortByMtimeDesc (l : List FtpFile) : List FtpFile := l.foldr insertByMtime []

/-- The files each group deletes: everything after the first `keep` of
the descending sort, concatenated over the groups in order. -/
def eligibleOf (groups : List (String × List FtpFile)) (keep : Nat) : List FtpFile :=
  (groups.map (fun g => (sortByMtimeDesc g.2).drop keep)).flatten

/-- The deletion list of one retention sweep over `dir`. -/
def eligibleDeletes (dir : List FtpFile) (keep : Nat) : List FtpFile :=
  eligibleOf (groupsBy partKey (dir.filter (fun f => isNc f.name))) keep

/-- `FileManager.cleanup_old_ftp_files` when every deletion succeeds:
group the `.nc` files by part key, delete all but the newest `keep` of
each group, return the surviving directory and the removed count. -/
def cleanup_old_ftp_files (dir : List FtpFile) (keep : Nat) : List FtpFile × Nat :=
  let removed := eligibleDeletes dir keep
  (dir.filter (fun f => decide (f ∉ removed)), removed.length)

/-- Modelled from the claim's grouping rule: the same sweep but grouping
by the filename (not stem) substring before the first `_v`. -/
def cleanupClaimGrouping (dir : List FtpFile) (keep : Nat) : List FtpFile × Nat :=
  let removed := eligibleOf (groupsBy partKeyClaimRule (dir.filter (fun f => isNc f.name))) keep
  (dir.filter (fun f => decide (f ∉ removed)), removed.length)

/-- One group's deletions with a fallible `unlink` (`u name = false`
models a raised `OSError`): files are unlinked in order, the count grows
per success, and the first failure aborts with the files already deleted. -/
def sweepFiles (u : String → Bool) : List FtpFile → Nat → Except Unit Nat × List FtpFile
  | [], n => (Except.ok n, [])
  | f :: fs, n =>
    if u f.name then
      let r := sweepFiles u fs (n + 1)
      (r.1, f :: r.2)
    else (Except.error (), [])

/-- The per-group loop of the sweep under a fallible `unlink`; an
exception propagates out of the whole loop. -/
def sweepGroups (u : String → Bool) (keep : Nat) :
    List (String × List FtpFile) → Nat → Except Unit Nat × List FtpFile
  | [], n => (Except.ok n, [])
  | g :: gs, n =>
    let r := sweepFiles u ((sortByMtimeDesc g.2).drop keep) n
    match r.1 with
    | Except.ok n' =>
      let r' := sweepGroups u keep gs n'
      (r'.1, r.2 ++ r'.2)
    | Except.error e => (Except.error e, r.2)

/-- `cleanup_old_ftp_files` under a fallible `unlink`: the returned count
(or the propagated exception) and the directory contents afterwards.
There is no per-file exception handling in the source loop. -/
def cleanup_old_ftp_files_unlink (dir : List FtpFile) (keep : Nat) (u : String → Bool) :
    Except Unit Nat × List FtpFile :=
  let r := sweepGroups u keep (groupsBy partKey (dir.filter (fun f => isNc f.name))) 0
  (r.1, dir.filter (fun f => decide (f ∉ r.2)))

/-- Three published versions of part `q`; deleting `q_v2_b.nc` fails. -/
def c4Dir : List FtpFile :=
  [⟨"q_v1_a.nc", 1⟩, ⟨"q_v2_b.nc", 2⟩, ⟨"q_v3_c.nc", 3⟩]

/-- Unlink oracle failing exactly on `q_v2_b.nc`. -/
def c4Unlink : String → Bool := fun nm => !(nm == "q_v2_b.nc")

/-- C4 counterexample: with `keep_count = 1` the eligible deletions are
`q_v2_b.nc` then `q_v1_a.nc`; the failure on the first is not handled
per-file — the sweep raises instead of returning a count, and the
remaining eligible file `q_v1_a.nc` is not deleted either (the claim
predicts a returned count of 1 with the sweep continuing). -/
theorem c4_counterexample :
    (cleanup_old_ftp_files_unlink c4Dir 1 c4Unlink).1 = Except.error ()
    ∧ (cleanup_old_ftp_files_unlink c4Dir 1 c4Unlink).2
        = [⟨"q_v1_a.nc", 1⟩, ⟨"q_v2_b.nc", 2⟩, ⟨"q_v3_c.nc", 3⟩] :=
  ⟨rfl, rfl⟩

/-- `takeWhile` passes through a prefix that wholly satisfies `p`. -/
theorem takeWhile_append_of_all {p : FtpFile → Bool} {l1 l2 : List FtpFile}
    (h : ∀ x ∈ l1, p x = true) :
    (l1 ++ l2).takeWhile p = l1 ++ l2.takeWhile p := by
  induction l1 with
  | nil => simp
  | cons a l1 ih =>
    rw [List.cons_append, List.takeWhile_cons, if_pos (h a (List.mem_cons_self _ _)),
      ih (fun x hx => h x (List.mem_cons_of_mem _ hx)), List.cons_append]

/-- `takeWhile` stops inside a prefix containing a failure. -/
theorem takeWhile_append_of_not_all {p : FtpFile → Bool} {l1 : List FtpFile}
    (h : l1.all p = false) (l2 : List FtpFile) :
    (l1 ++ l2).takeWhile p = l1.takeWhile p := by
  induction l1 with
  | nil => simp at h
  | cons a l1 ih =>
    rw [List.all_cons] at h
    by_cases ha : p a = true
    · rw [ha] at h
      simp only [Bool.true_and] at h
      rw [List.cons_append, List.takeWhile_cons, if_pos ha, List.takeWhile_cons, if_pos ha,
        ih h]
    · have ha' : p a = false := by revert ha; cases p a <;> simp
      rw [List.cons_append, List.takeWhile_cons, if_neg (by simp [ha']),
        List.takeWhile_cons, if_neg (by simp [ha'])]

/-- Characterization of `sweepFiles`: all-success returns the bumped
count with everything deleted, otherwise the exception with the longest
successful prefix deleted. -/
theorem sweepFiles_eq (u : String → Bool) (fs : List FtpFile) :
    ∀ n, sweepFiles u fs n
      = (if fs.all (fun f => u f.name) then Except.ok (n + fs.length) else Except.error (),
        fs.takeWhile (fun f => u f.name)) := by
  induction fs with
  | nil => intro n; simp [sweepFiles]
  | cons f fs ih =>
    intro n
    by_cases hf : u f.name = true
    · rw [show sweepFiles u (f :: fs) n
          = (if u f.name then
              ((sweepFiles u fs (n + 1)).1, f :: (sweepFiles u fs (n + 1)).2)
            else (Except.error (), [])) from rfl,
        if_pos hf, ih (n + 1)]
      by_cases hall : fs.all (fun f => u f.name) = true <;>
        simp [hall, hf, List.all_cons, List.takeWhile_cons] <;> omega
    · have hf' : u f.name = false := by revert hf; cases u f.name <;> simp
      rw [show sweepFiles u (f :: fs) n
          = (if u f.name then
              ((sweepFiles u fs (n + 1)).1, f :: (sweepFiles u fs (n + 1)).2)
            else (Except.error (), [])) from rfl,
        if_neg (by simp [hf'])]
      simp [List.all_cons, List.takeWhile_cons, hf']

/-- Characterization of `sweepGroups` in terms of the concatenated
per-group deletion lists. -/
theorem sweepGroups_eq (u : String → Bool) (keep : Nat) (gs : List (String × List FtpFile)) :
    ∀ n, sweepGroups u keep gs n
      = (if (eligibleOf gs keep).all (fun f => u f.name) then
            Except.ok (n + (eligibleOf gs keep).length)
          else Except.error (),
        (eligibleOf gs keep).takeWhile (fun f => u f.name)) := by
  induction gs with
  | nil => intro n; simp [sweepGroups, eligibleOf]
  | cons g gs ih =>
    intro n
    have hE : eligibleOf (g :: gs) keep
        = (sortByMtimeDesc g.2).drop keep ++ eligibleOf gs keep := by
      simp [eligibleOf]
    rw [show sweepGroups u keep (g :: gs) n
        = (match (sweepFiles u ((sortByMtimeDesc g.2).drop keep) n).1 with
          | Except.ok n' =>
            ((sweepGroups u keep gs n').1,
              (sweepFiles u ((sortByMtimeDesc g.2).drop keep) n).2 ++ (sweepGroups u keep gs n').2)
          | Except.error e =>
            (Except.error e, (sweepFiles u ((sortByMtimeDesc g.2).drop keep) n).2)) from rfl,
      sweepFiles_eq, hE]
    by_cases hD : ((sortByMtimeDesc g.2).drop keep).all (fun f => u f.name) = true
    · rw [if_pos hD]
      simp only
      rw [ih (n + ((sortByMtimeDesc g.2).drop keep).length)]
      have hall : ((sortByMtimeDesc g.2).drop keep ++ eligibleOf gs keep).all (fun f => u f.name)
          = (eligibleOf gs keep).all (fun f => u f.name) := by
        rw [List.all_append, hD, Bool.true_and]
      rw [hall, takeWhile_append_of_all (fun x hx => by
        have := List.all_eq_true.1 hD x hx
        exact this)]
      have htw : ((sortByMtimeDesc g.2).drop keep).takeWhile (fun f => u f.name)
          = (sortByMtimeDesc g.2).drop keep :=
        List.takeWhile_eq_self_iff.2 (fun x hx => List.all_eq_true.1 hD x hx)
      by_cases hG : (eligibleOf gs keep).all (fun f => u f.name) = true <;>
        simp [hG, htw, List.length_append] <;> omega
    · have hD' : ((sortByMtimeDesc g.2).drop keep).all (fun f => u f.name) = false := by
        revert hD; cases ((sortByMtimeDesc g.2).drop keep).all (fun f => u f.name) <;> simp
      rw [if_neg hD]
      simp only
      have hall : ((sortByMtimeDesc g.2).drop keep ++ eligibleOf gs keep).all (fun f => u f.name)
          = false := by
        rw [List.all_append, hD', Bool.false_and]
      rw [hall, takeWhile_append_of_not_all hD']
      simp

/-- C4 amended: a deletion failure is not handled per-file.  If every
eligible deletion succeeds the sweep returns the number of files removed,
but as soon as one deletion fails the exception propagates: no count is
returned and only the files before the failure (in sweep order) have been
removed — the remaining eligible files survive. -/
theorem c4_amended (dir : List FtpFile) (keep : Nat) (u : String → Bool) :
    (cleanup_old_ftp_files_unlink dir keep u).1
      = (if (eligibleDeletes dir keep).all (fun f => u f.name) then
          Except.ok (eligibleDeletes dir keep).length
        else Except.error ())
    ∧ (cleanup_old_ftp_files_unlink dir keep u).2
      = dir.filter (fun f => decide (f ∉ (eligibleDeletes dir keep).takeWhile (fun f => u f.name))) := by
  unfold cleanup_old_ftp_files_unlink eligibleDeletes
  rw [sweepGroups_eq]
  constructor
  · by_cases h : (eligibleOf (groupsBy partKey (dir.filter (fun f => isNc f.name))) keep).all
        (fun f => u f.name) = true <;> simp [h]
  · rfl

/-- Elements of an insertion are the inserted element or old elements. -/
theorem mem_insertByMtime {b x : FtpFile} {l : List FtpFile}
    (h : b ∈ insertByMtime x l) : b = x ∨ b ∈ l := by
  induction l with
  | nil => simpa [insertByMtime] using h
  | cons y ys ih =>
    unfold insertByMtime at h
    by_cases hc : y.mtime ≤ x.mtime
    · rw [if_pos hc] at h
      rcases List.mem_cons.1 h with rfl | h2
      · exact Or.inl rfl
      · exact Or.inr h2
    · rw [if_neg hc] at h
      rcases List.mem_cons.1 h with rfl | h2
      · exact Or.inr (List.mem_cons_self _ _)
      · rcases ih h2 with rfl | h3
        · exact Or.inl rfl
        · exact Or.inr (List.mem_cons_of_mem _ h3)

/-- Insertion yields a permutation of consing. -/
theorem insertByMtime_perm (x : FtpFile) (l : List FtpFile) :
    List.Perm (insertByMtime x l) (x :: l) := by
  induction l with
  | nil => exact List.Perm.refl _
  | cons y ys ih =>
    unfold insertByMtime
    by_cases hc : y.mtime ≤ x.mtime
    · rw [if_pos hc]
    · rw [if_neg hc]
      exact (List.Perm.cons y ih).trans (List.Perm.swap x y ys)

/-- The stable sort permutes its input. -/
theorem sortByMtimeDesc_perm (l : List FtpFile) :
    List.Perm (sortByMtimeDesc l) l := by
  induction l with
  | nil => exact List.Perm.refl _
  | cons a l ih =>
    exact (insertByMtime_perm a (sortByMtimeDesc l)).trans (List.Perm.cons a ih)

/-- Insertion preserves the descending-mtime ordering. -/
theorem insertByMtime_sorted {x : FtpFile} {l : List FtpFile}
    (h : l.Pairwise (fun a b => b.mtime ≤ a.mtime)) :
    (insertByMtime x l).Pairwise (fun a b => b.mtime ≤ a.mtime) := by
  induction l with
  | nil => simp [insertByMtime]
  | cons y ys ih =>
    rw [List.pairwise_cons] at h
    unfold insertByMtime
    by_cases hc : y.mtime ≤ x.mtime
    · rw [if_pos hc, List.pairwise_cons]
      refine ⟨?_, List.pairwise_cons.2 h⟩
      intro b hb
      rcases List.mem_cons.1 hb with rfl | hb2
      · exact hc
      · exact le_trans (h.1 b hb2) hc
    · rw [if_neg hc, List.pairwise_cons]
      refine ⟨?_, ih h.2⟩
      intro b hb
      rcases mem_insertByMtime hb with rfl | hb2
      · omega
      · exact h.1 b hb2

/-- The sorted list is pairwise descending in mtime. -/
theorem sortByMtimeDesc_sorted (l : List FtpFile) :
    (sortByMtimeDesc l).Pairwise (fun a b => b.mtime ≤ a.mtime) := by
  induction l with
  | nil => simp [sortByMtimeDesc]
  | cons a l ih => exact insertByMtime_sorted ih

/-- `firstKeys` has the same members as its input. -/
theorem mem_firstKeys {x : String} : ∀ {l : List String}, x ∈ firstKeys l ↔ x ∈ l := by
  intro l
  induction l with
  | nil => simp [firstKeys]
  | cons k ks ih =>
    unfold firstKeys
    constructor
    · intro h
      rcases List.mem_cons.1 h with rfl | h2
      · exact List.mem_cons_self _ _
      · exact List.mem_cons_of_mem _ (ih.1 (List.mem_filter.1 h2).1)
    · intro h
      rcases List.mem_cons.1 h with rfl | h2
      · exact List.mem_cons_self _ _
      · by_cases hk : x = k
        · exact hk ▸ List.mem_cons_self _ _
        · exact List.mem_cons_of_mem _
            (List.mem_filter.2 ⟨ih.2 h2, by simp [hk]⟩)

/-- Destructing membership in a grouping. -/
theorem mem_groupsBy {key : String → String} {l : List FtpFile} {k : String}
    {g : List FtpFile} (h : (k, g) ∈ groupsBy key l) :
    g = l.filter (fun f => key f.name == k) ∧ k ∈ l.map (fun f => key f.name) := by
  obtain ⟨k', hk', heq⟩ := List.mem_map.1 h
  cases heq
  exact ⟨rfl, mem_firstKeys.1 hk'⟩

/-- Every occurring key names a group. -/
theorem groupsBy_mem_of_key {key : String → String} {l : List FtpFile} {k : String}
    (h : k ∈ l.map (fun f => key f.name)) :
    (k, l.filter (fun f => key f.name == k)) ∈ groupsBy key l :=
  List.mem_map.2 ⟨k, mem_firstKeys.2 h, rfl⟩

/-- A file dropped from some group's sorted tail is in the deletion list. -/
theorem mem_eligibleOf {groups : List (String × List FtpFile)} {keep : Nat}
    {p : String × List FtpFile} (hp : p ∈ groups) {x : FtpFile}
    (hx : x ∈ (sortByMtimeDesc p.2).drop keep) : x ∈ eligibleOf groups keep := by
  unfold eligibleOf
  exact List.mem_flatten.2 ⟨_, List.mem_map_of_mem _ hp, hx⟩

/-- A flatten of empty lists is empty. -/
theorem flatten_eq_nil_of_all {L : List (List FtpFile)} (h : ∀ l ∈ L, l = []) :
    L.flatten = [] := by
  induction L with
  | nil => rfl
  | cons a L ih =>
    rw [List.flatten_cons, h a (List.mem_cons_self _ _),
      ih fun l hl => h l (List.mem_cons_of_mem _ hl)]
    rfl

/-- After one sweep every group is at or below the retention count, so a
second sweep deletes nothing. -/
theorem cleanup_idempotent (dir : List FtpFile) (keep : Nat) :
    (cleanup_old_ftp_files (cleanup_old_ftp_files dir keep).1 keep).2 = 0 := by
  show (eligibleDeletes (dir.filter (fun f => decide (f ∉ eligibleDeletes dir keep))) keep).length = 0
  rw [show eligibleDeletes (dir.filter (fun f => decide (f ∉ eligibleDeletes dir keep))) keep
      = eligibleOf (groupsBy partKey
          ((dir.filter (fun f => decide (f ∉ eligibleDeletes dir keep))).filter
            (fun f => isNc f.name))) keep from rfl]
  unfold eligibleOf
  rw [flatten_eq_nil_of_all ?_]
  · rfl
  intro l hl
  obtain ⟨⟨k, g'⟩, hg', rfl⟩ := List.mem_map.1 hl
  obtain ⟨hgeq, hkmem⟩ := mem_groupsBy hg'
  -- the original group for key k and its deletions
  have hkmem2 : k ∈ (dir.filter (fun f => isNc f.name)).map (fun f => partKey f.name) := by
    obtain ⟨f, hf, rfl⟩ := List.mem_map.1 hkmem
    have hf1 := List.mem_filter.1 hf
    have hf2 := List.mem_filter.1 hf1.1
    exact List.mem_map.2 ⟨f, List.mem_filter.2 ⟨hf2.1, hf1.2⟩, rfl⟩
  have hgrp := @groupsBy_mem_of_key partKey _ _ hkmem2
  have hdropE : ∀ x ∈ (sortByMtimeDesc
      ((dir.filter (fun f => isNc f.name)).filter (fun f => partKey f.name == k))).drop keep,
      x ∈ eligibleDeletes dir keep := by
    intro x hx
    exact mem_eligibleOf hgrp hx
  -- the second-sweep group is the filtered original group
  have hg'eq : g' = ((dir.filter (fun f => isNc f.name)).filter
      (fun f => partKey f.name == k)).filter (fun f => decide (f ∉ eligibleDeletes dir keep)) := by
    rw [hgeq]
    simp only [List.filter_filter]
    apply List.filter_congr
    intro f _
    cases decide (f ∉ eligibleDeletes dir keep) <;> cases isNc f.name <;>
      cases partKey f.name == k <;> rfl
  -- its length is bounded by the retention count
  have hlen : g'.length ≤ keep := by
    rw [hg'eq]
    have hperm := (sortByMtimeDesc_perm
      ((dir.filter (fun f => isNc f.name)).filter (fun f => partKey f.name == k))).filter
      (fun f => decide (f ∉ eligibleDeletes dir keep))
    rw [← hperm.length_eq]
    conv_lhs => rw [← List.take_append_drop keep (sortByMtimeDesc
      ((dir.filter (fun f => isNc f.name)).filter (fun f => partKey f.name == k)))]
    rw [List.filter_append]
    have hnil : ((sortByMtimeDesc ((dir.filter (fun f => isNc f.name)).filter
        (fun f => partKey f.name == k))).drop keep).filter
        (fun f => decide (f ∉ eligibleDeletes dir keep)) = [] := by
      rw [List.filter_eq_nil_iff]
      intro x hx
      simp [hdropE x hx]
    rw [hnil, List.append_nil]
    refine le_trans (List.length_filter_le _ _) ?_
    rw [List.length_take]
    omega
  have : (sortByMtimeDesc g').length ≤ keep := by
    rw [(sortByMtimeDesc_perm g').length_eq]
    exact hlen
  exact List.drop_eq_nil_of_le this

/-- Mixed directory: two files with a `_v` marker and one without. -/
def c5MixDir : List FtpFile :=
  [⟨"abc_v1_t.nc", 3⟩, ⟨"abc_v2_t.nc", 2⟩, ⟨"abc.nc", 1⟩]

/-- C5 counterexample: the code groups by the **stem** before `_v`, so
`abc.nc` falls into group `abc` together with the versioned files and is
deleted (count 1), while grouping by the full filename before `_v` — the
claim's rule — would put `abc.nc` alone in group `abc.nc` and delete
nothing. -/
theorem c5_counterexample :
    (cleanup_old_ftp_files c5MixDir 2).2 = 1
    ∧ (cleanupClaimGrouping c5MixDir 2).2 = 0
    ∧ (cleanup_old_ftp_files c5MixDir 2).1
        = [⟨"abc_v1_t.nc", 3⟩, ⟨"abc_v2_t.nc", 2⟩] :=
  ⟨rfl, rfl, rfl⟩

/-- Five published versions of one part with distinct modification
times. -/
def c5Dir : List FtpFile :=
  [⟨"p_v1_a.nc", 1⟩, ⟨"p_v2_b.nc", 2⟩, ⟨"p_v3_c.nc", 3⟩,
    ⟨"p_v4_d.nc", 4⟩, ⟨"p_v5_e.nc", 5⟩]

/-- C5 amended: the sweep groups `.nc` files by the *stem* substring
before the first `_v`, keeps the `keepCount` newest of each group by
modification time and deletes the rest, returns the number deleted, and
is idempotent; in the concrete 5-file scenario with `keepCount = 2`
exactly the 3 oldest files are removed and a repeat sweep removes none. -/
theorem c5_amended (dir : List FtpFile) (keep : Nat) :
    (cleanup_old_ftp_files dir keep).2 = (eligibleDeletes dir keep).length
    ∧ (∀ g ∈ groupsBy partKey (dir.filter (fun f => isNc f.name)),
        ∀ x ∈ (sortByMtimeDesc g.2).drop keep, ∀ y ∈ (sortByMtimeDesc g.2).take keep,
          x.mtime ≤ y.mtime)
    ∧ (cleanup_old_ftp_files (cleanup_old_ftp_files dir keep).1 keep).2 = 0
    ∧ ((cleanup_old_ftp_files c5Dir 2).2 = 3
      ∧ (cleanup_old_ftp_files c5Dir 2).1 = [⟨"p_v4_d.nc", 4⟩, ⟨"p_v5_e.nc", 5⟩]
      ∧ (cleanup_old_ftp_files (cleanup_old_ftp_files c5Dir 2).1 2).2 = 0) := by
  refine ⟨rfl, ?_, cleanup_idempotent dir keep, rfl, rfl, rfl⟩
  intro g _ x hx y hy
  have hp := sortByMtimeDesc_sorted g.2
  rw [← List.take_append_drop keep (sortByMtimeDesc g.2)] at hp
  exact (List.pairwise_append.1 hp).2.2 y hy x hx

/-- Witness for `c5_amended`: in the 5-file scenario the oldest file (to
be deleted) is no newer than the newest kept file. -/
theorem c5_amended_witness :
    (⟨"p_v1_a.nc", 1⟩ : FtpFile).mtime ≤ (⟨"p_v5_e.nc", 5⟩ : FtpFile).mtime :=
  (c5_amended c5Dir 2).2.1 ("p", c5Dir.filter (fun f => isNc f.name)) (by decide)
    ⟨"p_v1_a.nc", 1⟩ (by decide) ⟨"p_v5_e.nc", 5⟩ (by decide)

end ChipWarden
